import Mathlib

/-!
Shallow embedding of `src/app/scripts/svgcommands.ts` (the ShapeShifter
path-command core) and verification of the claims about it.

Modelling conventions:
* JS numbers are exact rationals (`ℚ`); none of the verified claims depends
  on floating-point rounding.
* A JS array slot that holds `undefined` (or a `NaN` produced by arithmetic
  on `undefined`) is modelled as `none`.
* Each concrete `DrawCommand` class is identified by a `Variant` tag, which
  plays the role of `this.constructor` (runtime class identity) and of the
  `svgChar_` field.
* The externals `MathUtil.transform` and `SvgUtil.transformArc` live in
  files that are not part of this source tree; they are abstracted as
  function parameters and the theorems quantify over them.
-/

/-- 2D point (`mathutil.Point`): a value with `x`/`y` coordinates. -/
structure Point where
  x : ℚ
  y : ℚ
deriving DecidableEq, Repr

/-- The concrete `DrawCommand` subclasses of the source file. -/
inductive Variant
  | move
  | line
  | quad
  | bezier
  | close
  | arc
deriving DecidableEq, Repr

/-- One `DrawCommand` object. `variant` is the runtime class
(`this.constructor`, equivalently the `svgChar_` tag); `points` is the
`points_` array (entries may be `undefined`, i.e. `none`); `args` is the
`EllipticalArcCommand.args` vector, `[]` for the other variants (which have
no `args` property of their own). -/
structure DrawCommand where
  variant : Variant
  points : List (Option Point)
  args : List (Option ℚ)
deriving DecidableEq, Repr

/-- JS array read `xs[i]`: out of range yields `undefined` (`none`). -/
def aGet (xs : List (Option ℚ)) (i : Nat) : Option ℚ :=
  (xs.get? i).join

/-- JS array read on a point array. -/
def pGet (xs : List (Option Point)) (i : Nat) : Option Point :=
  (xs.get? i).join

/-- JS array write `xs[i] = v`: writing past the end grows the array,
filling the gap with holes (`none`). -/
def jsArrSet (xs : List (Option ℚ)) (i : Nat) (v : Option ℚ) : List (Option ℚ) :=
  if i < xs.length then xs.set i v
  else xs ++ List.replicate (i - xs.length) none ++ [v]

/-- `lerp(a, b, t) = a + (b - a) * t` (bottom of the source file). -/
def lerp (a b t : ℚ) : ℚ :=
  a + (b - a) * t

/-- `lerp` on possibly-undefined operands: arithmetic on `undefined`
produces `NaN`, i.e. `none` propagates. -/
def lerpO (a b : Option ℚ) (t : ℚ) : Option ℚ :=
  match a, b with
  | some a, some b => some (lerp a b t)
  | _, _ => none

/-- `new Point(x, y)` from possibly-undefined coordinates: a point with an
undefined coordinate is degenerate and modelled as `none`. -/
def mkPointOpt (x y : Option ℚ) : Option Point :=
  match x, y with
  | some a, some b => some ⟨a, b⟩
  | _, _ => none

/-- `new MoveCommand(start, end)`; the start may be undefined (the very
first move of a path). -/
def mkMove (s e : Option Point) : DrawCommand :=
  ⟨Variant.move, [s, e], []⟩

/-- `new LineCommand(start, end)`. -/
def mkLine (s e : Option Point) : DrawCommand :=
  ⟨Variant.line, [s, e], []⟩

/-- `new ClosePathCommand(start, end)`. -/
def mkClose (s e : Option Point) : DrawCommand :=
  ⟨Variant.close, [s, e], []⟩

/-- `new QuadraticCurveCommand(start, cp, end)`. -/
def mkQuad (s c e : Option Point) : DrawCommand :=
  ⟨Variant.quad, [s, c, e], []⟩

/-- `new BezierCurveCommand(start, cp1, cp2, end)`. -/
def mkBezier (s c1 c2 e : Option Point) : DrawCommand :=
  ⟨Variant.bezier, [s, c1, c2, e], []⟩

/-- `new EllipticalArcCommand(...args)`: stores the flat `args` vector and
the two synthetic points `(args[0], args[1])` and `(args[7], args[8])`. -/
def mkArc (args : List (Option ℚ)) : DrawCommand :=
  ⟨Variant.arc,
    [mkPointOpt (aGet args 0) (aGet args 1), mkPointOpt (aGet args 7) (aGet args 8)],
    args⟩

/-- Arc construction from plain numbers (the well-formed 9-argument case). -/
def mkArcQ (args : List ℚ) : DrawCommand :=
  mkArc (args.map some)

namespace DrawCommand

/-- Getter `get start()`: `points_[0]`. -/
def start (c : DrawCommand) : Option Point :=
  pGet c.points 0

/-- Getter `get end()`: `points_[points_.length - 1]` (`end` is a Lean
keyword, hence the name `endP`). -/
def endP (c : DrawCommand) : Option Point :=
  pGet c.points (c.points.length - 1)

/-- `get svgChar()`: the single-character type tag. -/
def svgChar (c : DrawCommand) : Char :=
  match c.variant with
  | Variant.move => 'M'
  | Variant.line => 'L'
  | Variant.quad => 'Q'
  | Variant.bezier => 'C'
  | Variant.close => 'Z'
  | Variant.arc => 'A'

/-- `DrawCommand.isMorphableWith` with dynamic dispatch on the receiver:
the base class compares runtime classes and point counts, while the
`EllipticalArcCommand` override unconditionally returns true. -/
def isMorphableWith (c other : DrawCommand) : Bool :=
  if c.variant = Variant.arc then true
  else decide (c.variant = other.variant) && decide (c.points.length = other.points.length)

end DrawCommand

/-- The state seen by `DrawCommand.interpolate`: the receiver `tgt`
(`this`, mutated in place) and the two borrowed snapshots `startC`/`endC`.
Every assignment in the source writes a field of `this`; the embedding
makes that explicit by only ever updating `tgt`. -/
structure InterpState where
  tgt : DrawCommand
  startC : DrawCommand
  endC : DrawCommand
deriving DecidableEq, Repr

/-- Body of `EllipticalArcCommand.interpolate`: `this.args.forEach((_, i) => ...)`,
flags (indices 5 and 6) snap to the start value at fraction 0 and to the end
value otherwise, all other indices are lerped. -/
def arcInterpArgs (t s e : DrawCommand) (fraction : ℚ) : List (Option ℚ) :=
  (List.range t.args.length).map fun i =>
    if i = 5 ∨ i = 6 then
      if fraction = 0 then aGet s.args i else aGet e.args i
    else lerpO (aGet s.args i) (aGet e.args i) fraction

/-- Body of the base-class `DrawCommand.interpolate` loop: for each index of
`start.points`, if both the start and the end point are defined, write a new
interpolated point into `this.points[i]`. (When the loop runs, the
morphability guard has ensured the three point lists have equal length, so
`List.set` never falls out of range.) -/
def basePointsInterp (t s e : DrawCommand) (fraction : ℚ) : List (Option Point) :=
  (List.range s.points.length).foldl
    (fun acc i =>
      match pGet s.points i, pGet e.points i with
      | some sp, some ep => acc.set i (some ⟨lerp sp.x ep.x fraction, lerp sp.y ep.y fraction⟩)
      | _, _ => acc)
    t.points

/-- `DrawCommand.interpolate` (with the `EllipticalArcCommand` override),
expressed on the three-object state.  The arc override performs no
morphability check and always returns true; the base implementation returns
false without touching anything unless `this` is morphable with both
snapshots. -/
def DrawCommand.interpolateS (σ : InterpState) (fraction : ℚ) : InterpState × Bool :=
  if σ.tgt.variant = Variant.arc then
    ({ σ with tgt := { σ.tgt with args := arcInterpArgs σ.tgt σ.startC σ.endC fraction } }, true)
  else if !(σ.tgt.isMorphableWith σ.startC) || !(σ.tgt.isMorphableWith σ.endC) then
    (σ, false)
  else
    ({ σ with tgt := { σ.tgt with points := basePointsInterp σ.tgt σ.startC σ.endC fraction } },
      true)

/-- `this.interpolate(start, end, fraction)`, returning the updated receiver
and the boolean result. -/
def DrawCommand.interpolate (t s e : DrawCommand) (fraction : ℚ) : DrawCommand × Bool :=
  let r := DrawCommand.interpolateS ⟨t, s, e⟩ fraction
  (r.1.tgt, r.2)

/-- The record handed to / returned by the external `SvgUtil.transformArc`
(field `xAxisRot` stands for the source's x-axis-rotation entry). -/
structure ArcDesc where
  rx : Option ℚ
  ry : Option ℚ
  xAxisRot : Option ℚ
  largeArcFlag : Option ℚ
  sweepFlag : Option ℚ
  endX : Option ℚ
  endY : Option ℚ
deriving DecidableEq, Repr

/-- The `args` pipeline of `EllipticalArcCommand.transform`: write the
transformed start into `args[0..1]`, hand `args[2..8]` to the external
`SvgUtil.transformArc` (`arcT`), and write its seven result fields back. -/
def arcTransformArgs (mtXY : Option ℚ → Option ℚ → Option ℚ × Option ℚ)
    (arcT : ArcDesc → ArcDesc) (xs : List (Option ℚ)) : List (Option ℚ) :=
  let st := mtXY (aGet xs 0) (aGet xs 1)
  let a0 := jsArrSet (jsArrSet xs 0 st.1) 1 st.2
  let arc := arcT ⟨aGet a0 2, aGet a0 3, aGet a0 4, aGet a0 5, aGet a0 6, aGet a0 7, aGet a0 8⟩
  jsArrSet (jsArrSet (jsArrSet (jsArrSet (jsArrSet (jsArrSet (jsArrSet a0
    2 arc.rx) 3 arc.ry) 4 arc.xAxisRot) 5 arc.largeArcFlag) 6 arc.sweepFlag)
    7 arc.endX) 8 arc.endY

/-- `DrawCommand.transform` / `EllipticalArcCommand.transform`.
`mt` is the external `MathUtil.transform` on defined points (the transform
list is already folded in), `mtXY` the same external applied to the raw
`{x: args[0], y: args[1]}` record, and `arcT` the external
`SvgUtil.transformArc`. The base class maps every defined point in place;
the arc override rewrites `args[0..8]` and never touches `points_`. -/
def DrawCommand.transform (mt : Point → Point)
    (mtXY : Option ℚ → Option ℚ → Option ℚ × Option ℚ)
    (arcT : ArcDesc → ArcDesc) (c : DrawCommand) : DrawCommand :=
  if c.variant = Variant.arc then
    { c with args := arcTransformArgs mtXY arcT c.args }
  else
    { c with points := c.points.map (Option.map mt) }

/-- The `args` pipeline of `EllipticalArcCommand.reverse`: swap the two
endpoint pairs and flip the sweep flag (`0` becomes `1`, anything else
becomes `0`). -/
def arcReverseArgs (xs : List (Option ℚ)) : List (Option ℚ) :=
  let endX := aGet xs 0
  let endY := aGet xs 1
  let a := jsArrSet xs 0 (aGet xs 7)
  let a := jsArrSet a 1 (aGet a 8)
  let a := jsArrSet a 6 (some (if aGet a 6 = some 0 then 1 else 0))
  let a := jsArrSet a 7 endX
  jsArrSet a 8 endY

/-- `DrawCommand.reverse` / `EllipticalArcCommand.reverse`. The base class
reverses the point array in place, but only when `this.start` is defined
(a defined `Point` object is always truthy). The arc override rewrites
`args`, leaving `points_` untouched. -/
def DrawCommand.reverse (c : DrawCommand) : DrawCommand :=
  if c.variant = Variant.arc then
    { c with args := arcReverseArgs c.args }
  else
    match c.points.head? with
    | some (some _) => { c with points := c.points.reverse }
    | _ => c

/-- `SubPathCommand`: an ordered sequence of `DrawCommand`s. -/
structure SubPathCommand where
  commands : List DrawCommand
deriving DecidableEq, Repr

namespace SubPathCommand

/-- `SubPathCommand.isMorphableWith`: same length and pairwise morphable. -/
def isMorphableWith (a b : SubPathCommand) : Bool :=
  decide (a.commands.length = b.commands.length) &&
    (a.commands.zip b.commands).all fun p => DrawCommand.isMorphableWith p.1 p.2

/-- `SubPathCommand.interpolate`: boolean failure if either morphability
check fails, otherwise positional delegation to the child commands (whose
boolean results the source discards). -/
def interpolate (t s e : SubPathCommand) (fraction : ℚ) : SubPathCommand × Bool :=
  if !(t.isMorphableWith s) || !(t.isMorphableWith e) then (t, false)
  else
    (⟨(t.commands.zip (s.commands.zip e.commands)).map
        fun p => (DrawCommand.interpolate p.1 p.2.1 p.2.2 fraction).1⟩,
      true)

/-- `SubPathCommand.transform`: per-command delegation. -/
def transform (mt : Point → Point)
    (mtXY : Option ℚ → Option ℚ → Option ℚ × Option ℚ)
    (arcT : ArcDesc → ArcDesc) (sp : SubPathCommand) : SubPathCommand :=
  ⟨sp.commands.map (DrawCommand.transform mt mtXY arcT)⟩

/-- Getter `get start()`: `commands[0].end`. -/
def start (sp : SubPathCommand) : Option Point :=
  (sp.commands.head?).bind DrawCommand.endP

/-- Getter `get end()`: `commands[commands.length - 1].end`. -/
def endP (sp : SubPathCommand) : Option Point :=
  (sp.commands.getLast?).bind DrawCommand.endP

/-- `isClosed()`: exact coordinate equality of start and end. (On a
subpath whose start or end is undefined the source would fault; such
subpaths are outside the data model and never reached by the claims.) -/
def isClosed (sp : SubPathCommand) : Bool :=
  match sp.start, sp.endP with
  | some a, some b => decide (a.x = b.x) && decide (a.y = b.y)
  | _, _ => false

/-- The `instanceof ClosePathCommand` fix-up at the end of
`SubPathCommand.reverse`: if the second new command is a close, demote it to
a line and promote the (then current) last command to a close. -/
def revFixup (l : List DrawCommand) : List DrawCommand :=
  match l.get? 1 with
  | some second =>
    if second.variant = Variant.close then
      let l1 := l.set 1 (mkLine second.start second.endP)
      match l1.getLast? with
      | some lastCmd => l1.set (l1.length - 1) (mkClose lastCmd.start lastCmd.endP)
      | none => l1
    else l
  | none => l

/-- `SubPathCommand.reverse`. A single command is reversed in place;
otherwise a fresh move from the old first start to the old last end is
followed by the remaining commands, individually reversed, in reverse
order, and the close fix-up is applied. (An empty command list would fault
in the source; a subpath always carries a leading move.) -/
def reverse (sp : SubPathCommand) : SubPathCommand :=
  match sp.commands with
  | [] => sp
  | [c] => ⟨[c.reverse]⟩
  | c0 :: c1 :: rest =>
    ⟨revFixup
      (mkMove c0.start (DrawCommand.endP ((c1 :: rest).getLastD c1)) ::
        ((c1 :: rest).map DrawCommand.reverse).reverse)⟩

/-- `SubPathCommand.shiftBack`: no-op on single-command or non-closed
subpaths; otherwise rotate the last command to the front and patch
positions 0, 1 and (in the close case) the last position, exactly as the
index assignments of the source do. -/
def shiftBack (sp : SubPathCommand) : SubPathCommand :=
  if sp.commands.length = 1 ∨ sp.isClosed = false then sp
  else
    match sp.commands with
    | [] => sp
    | c0 :: rest =>
      let l := (c0 :: rest).getLastD c0
      let rot := l :: (c0 :: rest).dropLast
      let mid :=
        if l.variant = Variant.close then
          let lastCmd := rot.getLastD l
          (rot.set (rot.length - 1) (mkClose lastCmd.start lastCmd.endP)).set 1
            (mkLine l.start l.endP)
        else rot.set 1 l
      ⟨mid.set 0 (mkMove c0.start ((mid.get? 1).bind DrawCommand.start))⟩

/-- `SubPathCommand.shiftForward`: no-op on single-command or non-closed
subpaths, otherwise `length - 2` repeated applications of `shiftBack`
(the loop bound is stable because `shiftBack` preserves the length;
see `shiftBack_length` below). -/
def shiftForward (sp : SubPathCommand) : SubPathCommand :=
  if sp.commands.length = 1 ∨ sp.isClosed = false then sp
  else shiftBack^[sp.commands.length - 2] sp

end SubPathCommand

/-- `PathCommand`: an ordered sequence of `SubPathCommand`s. -/
structure PathCommand where
  commands : List SubPathCommand
deriving DecidableEq, Repr

namespace PathCommand

/-- `PathCommand.isMorphableWith`: same subpath count and pairwise
morphable. -/
def isMorphableWith (a b : PathCommand) : Bool :=
  decide (a.commands.length = b.commands.length) &&
    (a.commands.zip b.commands).all fun p => SubPathCommand.isMorphableWith p.1 p.2

/-- `PathCommand.interpolate`: boolean failure if either morphability check
fails, otherwise positional delegation to the subpaths. -/
def interpolate (t s e : PathCommand) (fraction : ℚ) : PathCommand × Bool :=
  if !(t.isMorphableWith s) || !(t.isMorphableWith e) then (t, false)
  else
    (⟨(t.commands.zip (s.commands.zip e.commands)).map
        fun p => (SubPathCommand.interpolate p.1 p.2.1 p.2.2 fraction).1⟩,
      true)

end PathCommand

/-! ## Shared concrete examples -/

/-- Shorthand for a defined point. -/
def pt (a b : ℚ) : Option Point :=
  some ⟨a, b⟩

/-- A sample line command. -/
def lineEx : DrawCommand :=
  mkLine (pt 0 0) (pt 1 1)

/-- A sample quadratic-curve command. -/
def quadEx : DrawCommand :=
  mkQuad (pt 0 0) (pt 1 2) (pt 2 0)

/-- A sample well-formed elliptical arc from `(0,0)` to `(2,2)`. -/
def arcEx : DrawCommand :=
  mkArcQ [0, 0, 1, 1, 0, 0, 0, 2, 2]

/-- The spec's scenario subpath:
`[Move(_, (0,0)), Line((0,0),(10,0)), Line((10,0),(10,10)), Close((10,10),(0,0))]`. -/
def sqEx : SubPathCommand :=
  ⟨[mkMove none (pt 0 0), mkLine (pt 0 0) (pt 10 0), mkLine (pt 10 0) (pt 10 10),
    mkClose (pt 10 10) (pt 0 0)]⟩

/-- A closed triangle-with-close subpath whose move start `(5,5)` differs
from every other point: `[Move((5,5),(0,0)), Line((0,0),(1,0)), Close((1,0),(0,0))]`. -/
def triEx : SubPathCommand :=
  ⟨[mkMove (pt 5 5) (pt 0 0), mkLine (pt 0 0) (pt 1 0), mkClose (pt 1 0) (pt 0 0)]⟩

/-- A closed subpath whose second command is a quadratic curve and whose
last command is a close: `[Move(_, (0,0)), Quad((0,0),(1,2),(2,0)), Close((2,0),(0,0))]`. -/
def mqzEx : SubPathCommand :=
  ⟨[mkMove none (pt 0 0), mkQuad (pt 0 0) (pt 1 2) (pt 2 0), mkClose (pt 2 0) (pt 0 0)]⟩

/-! ## Auxiliary definitions used by the claim theorems -/

/-- `c'` (the result of an operation on `c`) has the same type tag, point
count and argument-vector length as `c`, and is interchangeable with `c`
in any morphability check. -/
def StructurePreserved (c c' : DrawCommand) : Prop :=
  c'.variant = c.variant ∧
  c'.svgChar = c.svgChar ∧
  c'.points.length = c.points.length ∧
  c'.args.length = c.args.length ∧
  ∀ d : DrawCommand,
    DrawCommand.isMorphableWith c' d = DrawCommand.isMorphableWith c d ∧
    DrawCommand.isMorphableWith d c' = DrawCommand.isMorphableWith d c

/-- A command whose `reverse()` is an involution. -/
def revSafe (c : DrawCommand) : Bool :=
  if c.variant = Variant.arc then
    decide (c.args.length = 9) &&
      (decide (aGet c.args 6 = some 0) || decide (aGet c.args 6 = some 1))
  else !(DrawCommand.start c).isSome || (DrawCommand.endP c).isSome

/-- Conditions under which double reversal restores a subpath. -/
def reverseRestorable (sp : SubPathCommand) : Bool :=
  match sp.commands with
  | [] => false
  | [c] => revSafe c
  | c0 :: c1 :: rest =>
    decide (c0 = mkMove (DrawCommand.start c0) (DrawCommand.start c1)) &&
    (DrawCommand.start c1).isSome &&
    decide (c1.variant ≠ Variant.arc) &&
    (c1 :: rest).all revSafe &&
    ((c1 :: rest).dropLast.all fun c => decide (c.variant ≠ Variant.close)) &&
    (if ((c1 :: rest).getLastD c1).variant = Variant.close then
      decide ((c1 :: rest).getLastD c1 =
        mkClose (DrawCommand.start ((c1 :: rest).getLastD c1))
          (DrawCommand.endP ((c1 :: rest).getLastD c1))) &&
      (DrawCommand.start ((c1 :: rest).getLastD c1)).isSome &&
      (decide (rest = []) ||
        decide (c1 = mkLine (DrawCommand.start c1) (DrawCommand.endP c1)))
    else true)

/-- Rotate a list one step to the right (last element to the front);
`shiftBack` acts as this rotation on the loop data. -/
def rotR {α : Type} (l : List α) : List α :=
  match l.getLast? with
  | none => l
  | some a => a :: l.dropLast

/-- An all-curve/line closed loop: a move into the first command of `ds`
followed by `ds` itself, with no close among `ds`. -/
def openLoopSub (s : Option Point) (ds : List DrawCommand) : SubPathCommand :=
  match ds with
  | [] => ⟨[]⟩
  | d :: _ => ⟨mkMove s d.start :: ds⟩

/-- Consecutive commands share an endpoint. -/
def chainB : List DrawCommand → Bool
  | [] => true
  | [_] => true
  | a :: b :: t => decide (DrawCommand.endP a = DrawCommand.start b) && chainB (b :: t)

/-- A cyclically chained command list with defined endpoints and no close. -/
def cycleOK (ds : List DrawCommand) : Bool :=
  ds.all (fun d => decide (d.variant ≠ Variant.close) &&
    (DrawCommand.start d).isSome && (DrawCommand.endP d).isSome) &&
  chainB ds &&
  (match ds with
   | [] => true
   | d :: _ => decide (DrawCommand.endP (ds.getLastD d) = DrawCommand.start d))

/-- The consecutive line segments through a point chain. -/
def lineChain : Point → List Point → List DrawCommand
  | _, [] => []
  | a, b :: bs => mkLine (some a) (some b) :: lineChain b bs

/-- A polygon subpath: a move to the first point, lines through the chain,
and a close from the last point back to the first. -/
def polySub (s : Option Point) (ps : List Point) : SubPathCommand :=
  match ps with
  | [] => ⟨[]⟩
  | p :: tl =>
    ⟨mkMove s (some p) ::
      (lineChain p tl ++ [mkClose (some ((p :: tl).getLastD p)) (some p)])⟩

/-! ## Basic structural lemmas -/

theorem reverse_variant (c : DrawCommand) : (c.reverse).variant = c.variant := by
  unfold DrawCommand.reverse
  split
  · rfl
  · split <;> rfl

theorem jsArrSet_length_of_lt {xs : List (Option ℚ)} {i : Nat} (h : i < xs.length)
    (v : Option ℚ) : (jsArrSet xs i v).length = xs.length := by
  simp [jsArrSet, if_pos h]

theorem arcInterpArgs_length (t s e : DrawCommand) (f : ℚ) :
    (arcInterpArgs t s e f).length = t.args.length := by
  simp [arcInterpArgs]

theorem foldl_length_const {α β : Type} (g : List α → β → List α)
    (hg : ∀ acc i, (g acc i).length = acc.length) :
    ∀ (l : List β) (acc : List α), (l.foldl g acc).length = acc.length := by
  intro l
  induction l with
  | nil => intro acc; rfl
  | cons i rest ih =>
    intro acc
    simp only [List.foldl_cons]
    rw [ih, hg]

theorem basePointsInterp_length (t s e : DrawCommand) (f : ℚ) :
    (basePointsInterp t s e f).length = t.points.length := by
  unfold basePointsInterp
  refine foldl_length_const _ ?_ _ _
  intro acc i
  rcases pGet s.points i with _ | sp <;> rcases pGet e.points i with _ | ep <;> simp


/-! ## Claim C1: morphability of draw-command pairs -/

/-- C1, counterexample: the claim says every pair of differing concrete
variant is not morphable, but an `EllipticalArcCommand` receiver reports
itself morphable with a `LineCommand` (the arc override ignores its
argument entirely). -/
theorem claim1_counterexample :
    arcEx.variant ≠ lineEx.variant ∧ DrawCommand.isMorphableWith arcEx lineEx = true := by
  decide

/-- C1, amended: a pair of differing concrete variant is not morphable
provided the receiver is not an elliptical arc; an elliptical-arc receiver
reports itself morphable with every command whatsoever; and a pair of the
same variant with the same number of points is always morphable. -/
theorem claim1_amended (c d : DrawCommand) :
    (c.variant ≠ Variant.arc → c.variant ≠ d.variant →
      DrawCommand.isMorphableWith c d = false) ∧
    (c.variant = Variant.arc → DrawCommand.isMorphableWith c d = true) ∧
    (c.variant = d.variant → c.points.length = d.points.length →
      DrawCommand.isMorphableWith c d = true) := by
  refine ⟨?_, ?_, ?_⟩
  · intro hna hne
    unfold DrawCommand.isMorphableWith
    rw [if_neg hna]
    simp [hne]
  · intro ha
    unfold DrawCommand.isMorphableWith
    rw [if_pos ha]
  · intro hv hl
    unfold DrawCommand.isMorphableWith
    by_cases h : c.variant = Variant.arc
    · rw [if_pos h]
    · rw [if_neg h]
      simp [hv, hl]

/-- C1, witness: the amended theorem at a line/quad pair, at an arc
receiver against a quad, and at a pair of equal lines. -/
theorem claim1_witness :
    DrawCommand.isMorphableWith lineEx quadEx = false ∧
    DrawCommand.isMorphableWith arcEx quadEx = true ∧
    DrawCommand.isMorphableWith lineEx (mkLine (pt 3 3) (pt 4 4)) = true :=
  ⟨(claim1_amended lineEx quadEx).1 (by decide) (by decide),
   (claim1_amended arcEx quadEx).2.1 (by decide),
   (claim1_amended lineEx (mkLine (pt 3 3) (pt 4 4))).2.2 (by decide) (by decide)⟩

/-! ## Claim C2: elliptical-arc interpolation -/

/-- C2: for 9-argument arcs, `interpolate(start, end, f)` lerps every
argument except indices 5 and 6, which take the start value exactly at
`f = 0` and the end value otherwise; the call returns true. -/
theorem claim2_arc_interpolate
    (a0 a1 a2 a3 a4 a5 a6 a7 a8 b0 b1 b2 b3 b4 b5 b6 b7 b8
      c0 c1 c2 c3 c4 c5 c6 c7 c8 f : ℚ) :
    (DrawCommand.interpolate (mkArcQ [a0, a1, a2, a3, a4, a5, a6, a7, a8])
        (mkArcQ [b0, b1, b2, b3, b4, b5, b6, b7, b8])
        (mkArcQ [c0, c1, c2, c3, c4, c5, c6, c7, c8]) f).1.args =
      [some (lerp b0 c0 f), some (lerp b1 c1 f), some (lerp b2 c2 f),
        some (lerp b3 c3 f), some (lerp b4 c4 f),
        if f = 0 then some b5 else some c5,
        if f = 0 then some b6 else some c6,
        some (lerp b7 c7 f), some (lerp b8 c8 f)] ∧
    (DrawCommand.interpolate (mkArcQ [a0, a1, a2, a3, a4, a5, a6, a7, a8])
        (mkArcQ [b0, b1, b2, b3, b4, b5, b6, b7, b8])
        (mkArcQ [c0, c1, c2, c3, c4, c5, c6, c7, c8]) f).2 = true :=
  ⟨rfl, rfl⟩

/-! ## Claim C3: failed morphability checks mean boolean failure, no mutation -/

/-- C3: at all three levels, if the receiver is not morphable with either
snapshot then `interpolate` returns false and leaves the receiver (hence all
its geometry) unchanged; the guard path performs no other operation, so the
mismatch is never reported by an exception. -/
theorem claim3_interpolate_guard (f : ℚ) :
    (∀ t s e : DrawCommand,
      DrawCommand.isMorphableWith t s = false ∨ DrawCommand.isMorphableWith t e = false →
      DrawCommand.interpolate t s e f = (t, false)) ∧
    (∀ t s e : SubPathCommand,
      SubPathCommand.isMorphableWith t s = false ∨ SubPathCommand.isMorphableWith t e = false →
      SubPathCommand.interpolate t s e f = (t, false)) ∧
    (∀ t s e : PathCommand,
      PathCommand.isMorphableWith t s = false ∨ PathCommand.isMorphableWith t e = false →
      PathCommand.interpolate t s e f = (t, false)) := by
  refine ⟨?_, ?_, ?_⟩
  · intro t s e h
    unfold DrawCommand.interpolate DrawCommand.interpolateS
    by_cases ha : t.variant = Variant.arc
    · exfalso
      rcases h with h | h <;> rw [DrawCommand.isMorphableWith, if_pos ha] at h <;> cases h
    · simp only [ha, if_false, reduceIte]
      have hcond : (!DrawCommand.isMorphableWith t s || !DrawCommand.isMorphableWith t e) = true := by
        rcases h with h | h <;> rw [h] <;> simp
      simp [hcond]
  · intro t s e h
    unfold SubPathCommand.interpolate
    have hcond : (!SubPathCommand.isMorphableWith t s || !SubPathCommand.isMorphableWith t e) = true := by
      rcases h with h | h <;> rw [h] <;> simp
    simp [hcond]
  · intro t s e h
    unfold PathCommand.interpolate
    have hcond : (!PathCommand.isMorphableWith t s || !PathCommand.isMorphableWith t e) = true := by
      rcases h with h | h <;> rw [h] <;> simp
    simp [hcond]

/-- C3, witness: the guard theorem applied to a line/quad mismatch, to a
subpath pair of different command counts, and to a path pair of different
subpath counts. -/
theorem claim3_witness :
    DrawCommand.interpolate lineEx quadEx quadEx 0 = (lineEx, false) ∧
    SubPathCommand.interpolate ⟨[lineEx]⟩ ⟨[]⟩ ⟨[lineEx]⟩ 0 = (⟨[lineEx]⟩, false) ∧
    PathCommand.interpolate ⟨[⟨[lineEx]⟩]⟩ ⟨[]⟩ ⟨[]⟩ 0 = (⟨[⟨[lineEx]⟩]⟩, false) :=
  ⟨(claim3_interpolate_guard 0).1 lineEx quadEx quadEx (Or.inl (by decide)),
   (claim3_interpolate_guard 0).2.1 ⟨[lineEx]⟩ ⟨[]⟩ ⟨[lineEx]⟩ (Or.inl (by decide)),
   (claim3_interpolate_guard 0).2.2 ⟨[⟨[lineEx]⟩]⟩ ⟨[]⟩ ⟨[]⟩ (Or.inl (by decide))⟩

/-! ## Claim C9: interpolate never writes through the snapshots -/

/-- C9: `interpolate` only ever assigns into the receiver's own point list
and argument vector; on the three-object state the `start` and `end`
snapshots are returned untouched for every input and fraction. -/
theorem claim9_interpolate_frame (σ : InterpState) (f : ℚ) :
    (DrawCommand.interpolateS σ f).1.startC = σ.startC ∧
    (DrawCommand.interpolateS σ f).1.endC = σ.endC := by
  unfold DrawCommand.interpolateS
  split
  · exact ⟨rfl, rfl⟩
  · split
    · exact ⟨rfl, rfl⟩
    · exact ⟨rfl, rfl⟩

/-! ## Claim C6: the spec's reverse scenario -/

/-- C6, counterexample: on the scenario square the spec's predicted command
list after `reverse()` is not what the code produces (the code reverses
each rotated command before the close demotion, the spec's list forgets
that reversal). -/
theorem claim6_counterexample :
    (sqEx.reverse).commands ≠
      [mkMove none (pt 0 0), mkLine (pt 10 10) (pt 0 0), mkLine (pt 10 0) (pt 10 10),
        mkClose (pt 0 0) (pt 10 0)] := by
  decide

/-- C6, amended: the scenario subpath is closed, `reverse()` produces
`[Move(_, (0,0)), Line((0,0),(10,10)), Line((10,10),(10,0)), Close((10,0),(0,0))]`,
and the overall start is still `(0,0)`. -/
theorem claim6_amended :
    sqEx.isClosed = true ∧
    (sqEx.reverse).commands =
      [mkMove none (pt 0 0), mkLine (pt 0 0) (pt 10 10), mkLine (pt 10 10) (pt 10 0),
        mkClose (pt 10 0) (pt 0 0)] ∧
    (sqEx.reverse).start = pt 0 0 := by
  decide

/-! ## Structure-preservation lemmas for the single-command operations -/

theorem interpolate_tgt_shape (t s e : DrawCommand) (f : ℚ) :
    ((DrawCommand.interpolate t s e f).1).variant = t.variant ∧
    ((DrawCommand.interpolate t s e f).1).points.length = t.points.length ∧
    ((DrawCommand.interpolate t s e f).1).args.length = t.args.length := by
  unfold DrawCommand.interpolate DrawCommand.interpolateS
  by_cases ha : t.variant = Variant.arc
  · rw [if_pos ha]
    exact ⟨rfl, rfl, arcInterpArgs_length t s e f⟩
  · rw [if_neg ha]
    split
    · exact ⟨rfl, rfl, rfl⟩
    · exact ⟨rfl, basePointsInterp_length t s e f, rfl⟩

theorem list_len9 {α : Type} (xs : List α) (h : xs.length = 9) :
    ∃ x0 x1 x2 x3 x4 x5 x6 x7 x8, xs = [x0, x1, x2, x3, x4, x5, x6, x7, x8] := by
  rcases xs with _ | ⟨x0, xs⟩; · simp at h
  rcases xs with _ | ⟨x1, xs⟩; · simp at h
  rcases xs with _ | ⟨x2, xs⟩; · simp at h
  rcases xs with _ | ⟨x3, xs⟩; · simp at h
  rcases xs with _ | ⟨x4, xs⟩; · simp at h
  rcases xs with _ | ⟨x5, xs⟩; · simp at h
  rcases xs with _ | ⟨x6, xs⟩; · simp at h
  rcases xs with _ | ⟨x7, xs⟩; · simp at h
  rcases xs with _ | ⟨x8, xs⟩; · simp at h
  rcases xs with _ | ⟨x9, xs⟩
  · exact ⟨x0, x1, x2, x3, x4, x5, x6, x7, x8, rfl⟩
  · exfalso
    simp only [List.length_cons] at h
    omega

theorem arcTransformArgs_len9 (mtXY : Option ℚ → Option ℚ → Option ℚ × Option ℚ)
    (arcT : ArcDesc → ArcDesc) (x0 x1 x2 x3 x4 x5 x6 x7 x8 : Option ℚ) :
    (arcTransformArgs mtXY arcT [x0, x1, x2, x3, x4, x5, x6, x7, x8]).length = 9 := by
  simp only [arcTransformArgs, jsArrSet, aGet]
  norm_num

theorem arcReverseArgs_len9 (x0 x1 x2 x3 x4 x5 x6 x7 x8 : Option ℚ) :
    (arcReverseArgs [x0, x1, x2, x3, x4, x5, x6, x7, x8]).length = 9 := by
  simp only [arcReverseArgs, jsArrSet, aGet]
  norm_num

theorem transform_shape (mt : Point → Point)
    (mtXY : Option ℚ → Option ℚ → Option ℚ × Option ℚ)
    (arcT : ArcDesc → ArcDesc) (c : DrawCommand)
    (h9 : c.variant = Variant.arc → c.args.length = 9) :
    (DrawCommand.transform mt mtXY arcT c).variant = c.variant ∧
    (DrawCommand.transform mt mtXY arcT c).points.length = c.points.length ∧
    (DrawCommand.transform mt mtXY arcT c).args.length = c.args.length := by
  obtain ⟨v, pts, args⟩ := c
  unfold DrawCommand.transform
  dsimp only at h9 ⊢
  by_cases ha : v = Variant.arc
  · rw [if_pos ha]
    refine ⟨rfl, rfl, ?_⟩
    obtain ⟨x0, x1, x2, x3, x4, x5, x6, x7, x8, hx⟩ := list_len9 args (h9 ha)
    dsimp only
    rw [hx, arcTransformArgs_len9]
    simp
  · rw [if_neg ha]
    exact ⟨rfl, by simp, rfl⟩

theorem reverse_shape (c : DrawCommand)
    (h9 : c.variant = Variant.arc → c.args.length = 9) :
    (c.reverse).variant = c.variant ∧
    (c.reverse).points.length = c.points.length ∧
    (c.reverse).args.length = c.args.length := by
  obtain ⟨v, pts, args⟩ := c
  unfold DrawCommand.reverse
  dsimp only at h9 ⊢
  by_cases ha : v = Variant.arc
  · rw [if_pos ha]
    refine ⟨rfl, rfl, ?_⟩
    obtain ⟨x0, x1, x2, x3, x4, x5, x6, x7, x8, hx⟩ := list_len9 args (h9 ha)
    dsimp only
    rw [hx, arcReverseArgs_len9]
    simp
  · rw [if_neg ha]
    split
    · exact ⟨rfl, by simp, rfl⟩
    · exact ⟨rfl, rfl, rfl⟩

theorem isMorphableWith_congr {c c' : DrawCommand} (hv : c'.variant = c.variant)
    (hl : c'.points.length = c.points.length) (d : DrawCommand) :
    DrawCommand.isMorphableWith c' d = DrawCommand.isMorphableWith c d ∧
    DrawCommand.isMorphableWith d c' = DrawCommand.isMorphableWith d c := by
  unfold DrawCommand.isMorphableWith
  rw [hv, hl]
  exact ⟨rfl, rfl⟩

/-! ## Claim C10: structural invariants of the mutating command operations -/

theorem structurePreserved_of_shape {c c' : DrawCommand} (hv : c'.variant = c.variant)
    (hp : c'.points.length = c.points.length) (ha : c'.args.length = c.args.length) :
    StructurePreserved c c' :=
  ⟨hv, by unfold DrawCommand.svgChar; rw [hv], hp, ha,
    fun d => isMorphableWith_congr hv hp d⟩

/-- C10: `interpolate`, `transform` and `reverse` each preserve the
command's type tag (`svgChar`/runtime class), its number of points, and —
for arcs as specified by the data model, i.e. with a 9-entry argument
vector — the length of its `args` vector; consequently morphability with
any other command, in either role, is unchanged by the operation. -/
theorem claim10_invariants (c s e : DrawCommand) (f : ℚ) (mt : Point → Point)
    (mtXY : Option ℚ → Option ℚ → Option ℚ × Option ℚ) (arcT : ArcDesc → ArcDesc)
    (h9 : c.variant = Variant.arc → c.args.length = 9) :
    StructurePreserved c (DrawCommand.interpolate c s e f).1 ∧
    StructurePreserved c (DrawCommand.transform mt mtXY arcT c) ∧
    StructurePreserved c c.reverse := by
  obtain ⟨i1, i2, i3⟩ := interpolate_tgt_shape c s e f
  obtain ⟨t1, t2, t3⟩ := transform_shape mt mtXY arcT c h9
  obtain ⟨r1, r2, r3⟩ := reverse_shape c h9
  exact ⟨structurePreserved_of_shape i1 i2 i3,
    structurePreserved_of_shape t1 t2 t3,
    structurePreserved_of_shape r1 r2 r3⟩

/-- C10, witness: the invariants at a concrete arc, a concrete snapshot
pair, fraction 1/2 and identity externals. -/
theorem claim10_witness :
    StructurePreserved arcEx (DrawCommand.interpolate arcEx arcEx arcEx (1/2)).1 ∧
    StructurePreserved arcEx
      (DrawCommand.transform id (fun a b => (a, b)) id arcEx) ∧
    StructurePreserved arcEx arcEx.reverse :=
  claim10_invariants arcEx arcEx arcEx (1/2) id (fun a b => (a, b)) id (by decide)

/-! ## Claim C4: the arc's exposed endpoints versus its args vector -/

/-- C4, counterexample: after `reverse()` the arc's `args` carry the swapped
endpoints but the exposed `start` getter still returns the construction-time
point, so the exposed start no longer equals `(args[0], args[1])`. -/
theorem claim4_counterexample :
    DrawCommand.start (arcEx.reverse) = pt 0 0 ∧
    aGet (arcEx.reverse).args 0 = some 2 ∧
    aGet (arcEx.reverse).args 1 = some 2 ∧
    DrawCommand.start (arcEx.reverse) ≠
      mkPointOpt (aGet (arcEx.reverse).args 0) (aGet (arcEx.reverse).args 1) := by
  decide

/-- C4, amended: at construction the exposed start/end of a 9-argument arc
are `(args[0], args[1])` and `(args[7], args[8])`; but `interpolate`,
`transform` and `reverse` mutate only `args` and never the stored point
list, so after any of them the exposed points keep their construction-time
values even though `args` may have changed. -/
theorem claim4_amended (a0 a1 a2 a3 a4 a5 a6 a7 a8 : ℚ) (c s e : DrawCommand)
    (f : ℚ) (mt : Point → Point)
    (mtXY : Option ℚ → Option ℚ → Option ℚ × Option ℚ) (arcT : ArcDesc → ArcDesc)
    (hc : c.variant = Variant.arc) :
    DrawCommand.start (mkArcQ [a0, a1, a2, a3, a4, a5, a6, a7, a8]) = some ⟨a0, a1⟩ ∧
    DrawCommand.endP (mkArcQ [a0, a1, a2, a3, a4, a5, a6, a7, a8]) = some ⟨a7, a8⟩ ∧
    ((DrawCommand.interpolate c s e f).1).points = c.points ∧
    (DrawCommand.transform mt mtXY arcT c).points = c.points ∧
    (c.reverse).points = c.points := by
  refine ⟨rfl, rfl, ?_, ?_, ?_⟩
  · unfold DrawCommand.interpolate DrawCommand.interpolateS
    simp [hc]
  · unfold DrawCommand.transform
    simp [hc]
  · unfold DrawCommand.reverse
    simp [hc]

/-- C4, witness: the amended theorem at the sample arc with identity
externals and fraction 1/2. -/
theorem claim4_witness :
    ((DrawCommand.interpolate arcEx arcEx arcEx (1/2)).1).points = arcEx.points ∧
    (DrawCommand.transform id (fun a b => (a, b)) id arcEx).points = arcEx.points ∧
    (arcEx.reverse).points = arcEx.points :=
  ⟨(claim4_amended 0 0 1 1 0 0 0 2 2 arcEx arcEx arcEx (1/2) id (fun a b => (a, b)) id
      (by decide)).2.2.1,
   (claim4_amended 0 0 1 1 0 0 0 2 2 arcEx arcEx arcEx (1/2) id (fun a b => (a, b)) id
      (by decide)).2.2.2.1,
   (claim4_amended 0 0 1 1 0 0 0 2 2 arcEx arcEx arcEx (1/2) id (fun a b => (a, b)) id
      (by decide)).2.2.2.2⟩

/-! ## Claim C7: the shiftBack algorithm -/

theorem set_last_concat2 {α : Type} (xs : List α) (p x : α) :
    (xs ++ [p]).set ((xs ++ [p]).length - 1) x = xs ++ [x] := by
  simp [List.set_append]

@[simp] theorem start_mkLine (a b : Option Point) : (mkLine a b).start = a := rfl

@[simp] theorem start_mkMove (a b : Option Point) : (mkMove a b).start = a := rfl

@[simp] theorem start_mkClose (a b : Option Point) : (mkClose a b).start = a := rfl

@[simp] theorem endP_mkLine (a b : Option Point) : (mkLine a b).endP = b := rfl

@[simp] theorem endP_mkMove (a b : Option Point) : (mkMove a b).endP = b := rfl

@[simp] theorem endP_mkClose (a b : Option Point) : (mkClose a b).endP = b := rfl

/-- C7, counterexample: on `triEx` the command list after `shiftBack()` has
as second command the line built from the rotated-to-front close's
start/end, `Line((1,0),(0,0))`, not a line built from the old first
command's start/end `((5,5),(0,0))` as the claim states. -/
theorem claim7_counterexample :
    (triEx.shiftBack).commands.get? 1 = some (mkLine (pt 1 0) (pt 0 0)) ∧
    mkLine (pt 1 0) (pt 0 0) ≠
      mkLine (DrawCommand.start (mkMove (pt 5 5) (pt 0 0)))
        (DrawCommand.endP (mkMove (pt 5 5) (pt 0 0))) := by
  decide

/-- C7, amended: `shiftBack` is a no-op on single-command or non-closed
subpaths. On a closed multi-command subpath it rotates the last command `l`
to the front and then: if `l` is not a close, the new second command is `l`
itself (the old first command is discarded); if `l` is a close, the new
last command becomes a close preserving the previous last command's
start/end and the new second command becomes a line built from `l`'s own
start/end (with exactly two commands those two writes land on the same
position and the line wins). Finally the first command is replaced by a new
move from the pre-rotation first command's start to the new second
command's start. -/
theorem claim7_amended (sp : SubPathCommand) :
    (sp.commands.length = 1 → sp.shiftBack = sp) ∧
    (sp.isClosed = false → sp.shiftBack = sp) ∧
    (∀ c0 rest l, sp.commands = c0 :: rest → rest ≠ [] → sp.isClosed = true →
      (c0 :: rest).getLast? = some l →
      ((l.variant ≠ Variant.close →
          (sp.shiftBack).commands = mkMove c0.start l.start :: l :: rest.dropLast) ∧
       (l.variant = Variant.close → rest.dropLast = [] →
          (sp.shiftBack).commands = [mkMove c0.start l.start, mkLine l.start l.endP]) ∧
       (l.variant = Variant.close → ∀ mid2 p, rest.dropLast = mid2 ++ [p] →
          (sp.shiftBack).commands =
            mkMove c0.start l.start :: mkLine l.start l.endP :: mid2 ++
              [mkClose p.start p.endP]))) := by
  obtain ⟨cmds⟩ := sp
  refine ⟨?_, ?_, ?_⟩
  · intro h1
    unfold SubPathCommand.shiftBack
    rw [if_pos (Or.inl h1)]
  · intro h2
    unfold SubPathCommand.shiftBack
    rw [if_pos (Or.inr h2)]
  · intro c0 rest l hc hrest hclosed hlast
    simp only at hc
    subst hc
    have hguard : ¬((c0 :: rest).length = 1 ∨
        SubPathCommand.isClosed ⟨c0 :: rest⟩ = false) := by
      push_neg
      refine ⟨?_, by rw [hclosed]; simp⟩
      simp only [List.length_cons]
      intro h
      exact hrest (List.length_eq_zero.mp (by omega))
    have hgl : rest.getLast? = some l := by
      rcases rest with _ | ⟨r, rs⟩
      · exact absurd rfl hrest
      · rw [← List.getLast?_cons_cons]
        exact hlast
    have hl : (c0 :: rest).getLastD c0 = l := by
      rw [List.getLastD_eq_getLast?, hlast]
      rfl
    refine ⟨?_, ?_, ?_⟩
    · intro hnc
      unfold SubPathCommand.shiftBack
      rw [if_neg hguard]
      simp only [hl]
      rw [if_neg hnc]
      rw [List.dropLast_cons_of_ne_nil hrest]
      simp only [List.set, List.get?]
      rfl
    · intro hcv hde
      have hrl : rest = [l] := by
        have h5 := List.dropLast_append_getLast hrest
        rw [hde] at h5
        have h6 : rest.getLast hrest = l := by
          rw [List.getLast?_eq_getLast rest hrest] at hgl
          exact Option.some.inj hgl
        rw [h6] at h5
        simpa using h5.symm
      subst hrl
      unfold SubPathCommand.shiftBack
      rw [if_neg hguard]
      norm_num [hcv]
    · intro hcv mid2 p hmid
      have hrest2 : rest = (mid2 ++ [p]) ++ [l] := by
        have h5 := List.dropLast_append_getLast hrest
        have h6 : rest.getLast hrest = l := by
          rw [List.getLast?_eq_getLast rest hrest] at hgl
          exact Option.some.inj hgl
        rw [hmid, h6] at h5
        exact h5.symm
      subst hrest2
      unfold SubPathCommand.shiftBack
      rw [if_neg hguard]
      simp only [← List.cons_append, List.getLastD_concat, List.dropLast_concat]
      rw [if_pos hcv]
      have hform : l :: c0 :: mid2 ++ [p] = (l :: c0 :: mid2) ++ [p] := by simp
      rw [hform, set_last_concat2]
      simp [List.set_append, List.set, List.getElem?_append_left, List.get?]

/-- C7, witness: the amended close case on the scenario square. -/
theorem claim7_witness :
    (sqEx.shiftBack).commands =
      [mkMove none (pt 10 10), mkLine (pt 10 10) (pt 0 0), mkLine (pt 0 0) (pt 10 0),
        mkClose (pt 10 0) (pt 10 10)] := by
  have h := ((claim7_amended sqEx).2.2 (mkMove none (pt 0 0))
      [mkLine (pt 0 0) (pt 10 0), mkLine (pt 10 0) (pt 10 10), mkClose (pt 10 10) (pt 0 0)]
      (mkClose (pt 10 10) (pt 0 0)) rfl (by decide) (by decide) (by decide)).2.2
      (by decide) [mkLine (pt 0 0) (pt 10 0)] (mkLine (pt 10 0) (pt 10 10)) rfl
  simpa using h

/-! ## Claim C5: double reversal of a subpath -/


theorem arcReverseArgs_explicit (x0 x1 x2 x3 x4 x5 x6 x7 x8 : Option ℚ) :
    arcReverseArgs [x0, x1, x2, x3, x4, x5, x6, x7, x8] =
      [x7, x8, x2, x3, x4, x5, some (if x6 = some 0 then 1 else 0), x0, x1] := by
  simp [arcReverseArgs, jsArrSet, aGet, List.set]

theorem endP_eq_getLast_join (v : Variant) (pts : List (Option Point))
    (args : List (Option ℚ)) :
    DrawCommand.endP ⟨v, pts, args⟩ = (pts.getLast?).join := by
  unfold DrawCommand.endP pGet
  congr 1
  rw [List.getLast?_eq_getElem?, List.get?_eq_getElem?]

theorem reverse_reverse_of_revSafe (c : DrawCommand) (h : revSafe c = true) :
    c.reverse.reverse = c := by
  obtain ⟨v, pts, args⟩ := c
  by_cases ha : v = Variant.arc
  · subst ha
    unfold revSafe at h
    rw [if_pos rfl] at h
    simp only [Bool.and_eq_true, Bool.or_eq_true, decide_eq_true_eq] at h
    obtain ⟨x0, x1, x2, x3, x4, x5, x6, x7, x8, hx⟩ := list_len9 args h.1
    subst hx
    unfold DrawCommand.reverse
    simp only [reduceIte]
    simp only [arcReverseArgs_explicit]
    have h6 : x6 = some 0 ∨ x6 = some 1 := by
      simpa [aGet] using h.2
    rcases h6 with h6 | h6 <;> subst h6 <;> simp
  · unfold revSafe at h
    rw [if_neg ha] at h
    simp only [Bool.or_eq_true, Bool.not_eq_true'] at h
    unfold DrawCommand.reverse
    rw [if_neg ha]
    rcases pts with _ | ⟨p0, prest⟩
    · simp only [List.head?_nil]
      rw [if_neg ha]
    · rcases p0 with _ | q
      · simp only [List.head?_cons]
        rw [if_neg ha]
      · simp only [List.head?_cons]
        have hend : (DrawCommand.endP ⟨v, some q :: prest, args⟩).isSome := by
          rcases h with h | h
          · rw [show DrawCommand.start ⟨v, some q :: prest, args⟩ = some q from rfl] at h
            simp at h
          · exact h
        rw [endP_eq_getLast_join] at hend
        obtain ⟨r, hr⟩ : ∃ r, (some q :: prest).getLast? = some (some r) := by
          rcases hgl2 : (some q :: prest).getLast? with _ | s
          · rw [hgl2] at hend
            simp at hend
          · rcases s with _ | r
            · rw [hgl2] at hend
              simp at hend
            · exact ⟨r, rfl⟩
        rw [if_neg ha]
        have hrevhead : ((some q :: prest).reverse).head? = some (some r) := by
          rw [List.head?_reverse]
          exact hr
        simp only [hrevhead]
        simp

@[simp] theorem rev_mkLine (a b : Point) :
    (mkLine (some a) (some b)).reverse = mkLine (some b) (some a) := rfl

@[simp] theorem rev_mkClose (a b : Point) :
    (mkClose (some a) (some b)).reverse = mkClose (some b) (some a) := rfl

theorem rev_endP (c : DrawCommand) (hna : c.variant ≠ Variant.arc)
    (hs : (DrawCommand.start c).isSome) : (c.reverse).endP = c.start := by
  obtain ⟨v, pts, args⟩ := c
  rcases pts with _ | ⟨p0, prest⟩
  · simp [DrawCommand.start, pGet] at hs
  · rcases p0 with _ | q
    · simp [DrawCommand.start, pGet] at hs
    · unfold DrawCommand.reverse
      rw [if_neg hna]
      simp only [List.head?_cons]
      rw [endP_eq_getLast_join]
      rw [List.getLast?_reverse]
      rfl

theorem map_rev_invol (X : List DrawCommand) (h : ∀ c ∈ X, revSafe c = true) :
    (((X.map DrawCommand.reverse).reverse).map DrawCommand.reverse).reverse = X := by
  rw [List.map_reverse, List.reverse_reverse, List.map_map]
  calc X.map (DrawCommand.reverse ∘ DrawCommand.reverse)
      = X.map id := by
        apply List.map_congr_left
        intro c hc
        exact reverse_reverse_of_revSafe c (h c hc)
    _ = X := List.map_id X

theorem revFixup_close_concat (h z y : DrawCommand) (ys : List DrawCommand)
    (hz : z.variant = Variant.close) :
    SubPathCommand.revFixup (h :: z :: (ys ++ [y])) =
      h :: mkLine z.start z.endP :: (ys ++ [mkClose y.start y.endP]) := by
  unfold SubPathCommand.revFixup
  simp only [List.get?_cons_succ, List.get?_cons_zero]
  rw [if_pos hz]
  simp only [List.set]
  have hgl : (h :: mkLine z.start z.endP :: (ys ++ [y])).getLast? = some y := by
    rw [show h :: mkLine z.start z.endP :: (ys ++ [y]) =
      (h :: mkLine z.start z.endP :: ys) ++ [y] from by simp]
    exact List.getLast?_concat _
  simp only [hgl]
  simp [List.length_append, List.set_append, List.set]

/-- C5, amended: double reversal restores the command sequence for
subpaths of the shape the data model intends: a leading 2-point move whose
end is the second command's (defined) start, every later command
reverse-involutive (defined endpoints; arcs with 9 args and a binary sweep
flag), closes only at the last position, the command after the move not an
arc, and — when the subpath ends in a close — that close a plain 2-point
close and the second command a plain 2-point line. The counterexample
shows the restriction is necessary: a curve before a trailing close is
destroyed by the demote/promote steps. -/
theorem claim5_amended (sp : SubPathCommand) (h : reverseRestorable sp = true) :
    sp.reverse.reverse = sp := by
  obtain ⟨cmds⟩ := sp
  rcases cmds with _ | ⟨c0, _ | ⟨c1, rest⟩⟩
  · exact absurd h (by simp [reverseRestorable])
  · have hs : revSafe c0 = true := h
    show SubPathCommand.reverse (SubPathCommand.reverse ⟨[c0]⟩) = ⟨[c0]⟩
    unfold SubPathCommand.reverse
    simp only
    rw [reverse_reverse_of_revSafe c0 hs]
  · unfold reverseRestorable at h
    simp only [Bool.and_eq_true, decide_eq_true_eq, List.all_eq_true,
      Bool.or_eq_true] at h
    obtain ⟨⟨⟨⟨⟨h1, h2⟩, h3⟩, h4⟩, h5⟩, h6⟩ := h
    obtain ⟨lc, hlc⟩ : ∃ lc, (c1 :: rest).getLast? = some lc :=
      ⟨_, List.getLast?_eq_getLast _ (List.cons_ne_nil c1 rest)⟩
    have hlcD : (c1 :: rest).getLastD c1 = lc := by
      rw [List.getLastD_eq_getLast?, hlc]
      rfl
    rw [hlcD] at h6
    have hlcmem : lc ∈ c1 :: rest := by
      have := List.getLast?_eq_getLast (c1 :: rest) (List.cons_ne_nil c1 rest)
      rw [this] at hlc
      rw [← Option.some.inj hlc]
      exact List.getLast_mem _
    by_cases hclose : lc.variant = Variant.close
    · rw [if_pos hclose] at h6
      simp only [Bool.and_eq_true, decide_eq_true_eq, Bool.or_eq_true] at h6
      obtain ⟨⟨hshape, hlcs⟩, hdisj⟩ := h6
      obtain ⟨u, hu⟩ := Option.isSome_iff_exists.mp hlcs
      have hlcna : lc.variant ≠ Variant.arc := by
        rw [hclose]
        simp
      have hlcrs := h4 lc hlcmem
      unfold revSafe at hlcrs
      rw [if_neg hlcna] at hlcrs
      simp only [Bool.or_eq_true, Bool.not_eq_true'] at hlcrs
      have hlce : (DrawCommand.endP lc).isSome := by
        rcases hlcrs with hl | hl
        · rw [hu] at hl
          simp at hl
        · exact hl
      obtain ⟨w, hw⟩ := Option.isSome_iff_exists.mp hlce
      have hlcform : lc = mkClose (some u) (some w) := by
        rw [hshape, hu, hw]
      rcases hdisj with hrest0 | hc1line
      · -- two commands: [c0, close]
        subst hrest0
        have hc1l : c1 = lc := by
          simp only [List.getLast?_singleton] at hlc
          exact Option.some.inj hlc
        subst hc1l
        subst hlcform
        obtain ⟨a, ha⟩ : ∃ a, DrawCommand.start c0 = a := ⟨_, rfl⟩
        rw [ha] at h1
        subst h1
        rfl
      · -- general close case: a line after the move, a close at the end
        have hrestne : rest ≠ [] := by
          intro h0
          subst h0
          have hc1l : c1 = lc := by
            simp only [List.getLast?_singleton] at hlc
            exact Option.some.inj hlc
          rw [← hc1l, hc1line] at hclose
          simp [mkLine] at hclose
        obtain ⟨p, hp⟩ := Option.isSome_iff_exists.mp h2
        have hc1rs := h4 c1 (by simp)
        unfold revSafe at hc1rs
        rw [if_neg h3] at hc1rs
        simp only [Bool.or_eq_true, Bool.not_eq_true'] at hc1rs
        have hc1e : (DrawCommand.endP c1).isSome := by
          rcases hc1rs with hl | hl
          · rw [hp] at hl
            simp at hl
          · exact hl
        obtain ⟨q, hq⟩ := Option.isSome_iff_exists.mp hc1e
        have hc1form : c1 = mkLine (some p) (some q) := by
          rw [hc1line, hp, hq]
        obtain ⟨m, hm⟩ : ∃ m, rest = m ++ [lc] := by
          refine ⟨rest.dropLast, ?_⟩
          have hgl2 : rest.getLast? = some lc := by
            rcases rest with _ | ⟨r2, rs⟩
            · exact absurd rfl hrestne
            · rw [← List.getLast?_cons_cons]
              exact hlc
          have hrl : rest.getLast hrestne = lc := by
            rw [List.getLast?_eq_getLast rest hrestne] at hgl2
            exact Option.some.inj hgl2
          rw [← hrl]
          exact (List.dropLast_append_getLast hrestne).symm
        subst hm
        subst hc1form
        subst hlcform
        have hmns : ∀ c ∈ m, revSafe c = true := by
          intro c hc
          exact h4 c (by simp [hc])
        -- first reverse
        have hmap1 : ((mkLine (some p) (some q) ::
            (m ++ [mkClose (some u) (some w)])).map DrawCommand.reverse).reverse =
            mkClose (some w) (some u) ::
              ((m.map DrawCommand.reverse).reverse ++ [mkLine (some q) (some p)]) := by
          simp [List.reverse_append]
        have hgetD1 : ((mkLine (some p) (some q) ::
            (m ++ [mkClose (some u) (some w)])).getLastD (mkLine (some p) (some q))) =
            mkClose (some u) (some w) := by
          rw [show mkLine (some p) (some q) :: (m ++ [mkClose (some u) (some w)]) =
            (mkLine (some p) (some q) :: m) ++ [mkClose (some u) (some w)] from by simp,
            List.getLastD_concat]
        have hrev1 : SubPathCommand.reverse
            ⟨c0 :: mkLine (some p) (some q) :: (m ++ [mkClose (some u) (some w)])⟩ =
            ⟨mkMove c0.start (some w) :: mkLine (some w) (some u) ::
              ((m.map DrawCommand.reverse).reverse ++ [mkClose (some q) (some p)])⟩ := by
          unfold SubPathCommand.reverse
          simp only [hgetD1, endP_mkClose, hmap1]
          rw [revFixup_close_concat _ _ _ _ rfl]
          simp
        rw [hrev1]
        -- second reverse
        have hmap2 : ((mkLine (some w) (some u) ::
            ((m.map DrawCommand.reverse).reverse ++ [mkClose (some q) (some p)])).map
            DrawCommand.reverse).reverse =
            mkClose (some p) (some q) :: (m ++ [mkLine (some u) (some w)]) := by
          simp [List.reverse_append]
          exact (List.map_congr_left fun c hc =>
            reverse_reverse_of_revSafe c (hmns c hc)).trans (List.map_id m)
        have hgetD2 : ((mkLine (some w) (some u) ::
            ((m.map DrawCommand.reverse).reverse ++ [mkClose (some q) (some p)])).getLastD
            (mkLine (some w) (some u))) = mkClose (some q) (some p) := by
          rw [show mkLine (some w) (some u) ::
            ((m.map DrawCommand.reverse).reverse ++ [mkClose (some q) (some p)]) =
            (mkLine (some w) (some u) :: (m.map DrawCommand.reverse).reverse) ++
              [mkClose (some q) (some p)] from by simp, List.getLastD_concat]
        unfold SubPathCommand.reverse
        simp only [hgetD2, endP_mkClose, hmap2, start_mkMove]
        rw [revFixup_close_concat _ _ _ _ rfl]
        simp only [start_mkClose, endP_mkClose, start_mkLine, endP_mkLine]
        simp only [start_mkLine] at h1
        rw [show mkMove (DrawCommand.start c0) (some p) = c0 from h1.symm]
    · -- no close at the last position, hence none anywhere in the tail
      have hc1nc : c1.variant ≠ Variant.close := by
        rcases rest with _ | ⟨r2, rs⟩
        · have hc1l : lc = c1 := by
            simp only [List.getLast?_singleton] at hlc
            exact (Option.some.inj hlc).symm
          rw [hc1l] at hclose
          exact hclose
        · exact h5 c1 (by simp)
      -- first reverse
      have hget1 : (mkMove c0.start (DrawCommand.endP lc) ::
          ((c1 :: rest).map DrawCommand.reverse).reverse).get? 1 =
          some lc.reverse := by
        rw [List.get?_cons_succ]
        have hne : ((c1 :: rest).map DrawCommand.reverse).reverse ≠ [] := by
          simp
        rcases hTT : ((c1 :: rest).map DrawCommand.reverse).reverse with _ | ⟨y, ys⟩
        · exact absurd hTT hne
        · rw [List.get?_cons_zero]
          have : ((c1 :: rest).map DrawCommand.reverse).reverse.head? = some y := by
            rw [hTT]
            rfl
          rw [List.head?_reverse, List.getLast?_map, hlc] at this
          rw [show Option.map DrawCommand.reverse (some lc) =
            some lc.reverse from rfl] at this
          rw [← Option.some.inj this]
      have hrev1 : SubPathCommand.reverse ⟨c0 :: c1 :: rest⟩ =
          ⟨mkMove c0.start (DrawCommand.endP lc) ::
            ((c1 :: rest).map DrawCommand.reverse).reverse⟩ := by
        unfold SubPathCommand.reverse
        simp only [hlcD]
        unfold SubPathCommand.revFixup
        simp only [hget1]
        rw [if_neg (by rw [reverse_variant]; exact hclose)]
      rw [hrev1]
      obtain ⟨t1, trest, hT⟩ : ∃ t1 trest,
          ((c1 :: rest).map DrawCommand.reverse).reverse = t1 :: trest := by
        rcases hTT : ((c1 :: rest).map DrawCommand.reverse).reverse with _ | ⟨y, ys⟩
        · exact absurd hTT (by simp)
        · exact ⟨y, ys, rfl⟩
      rw [hT]
      -- facts about the reversed tail
      have hlast2 : (t1 :: trest).getLast? = some c1.reverse := by
        rw [← hT, List.getLast?_reverse, List.head?_map]
        rfl
      have hlast2D : (t1 :: trest).getLastD t1 = c1.reverse := by
        rw [List.getLastD_eq_getLast?, hlast2]
        rfl
      have hinv : ((t1 :: trest).map DrawCommand.reverse).reverse = c1 :: rest := by
        rw [← hT]
        exact map_rev_invol (c1 :: rest) h4
      have hendrev : DrawCommand.endP c1.reverse = DrawCommand.start c1 :=
        rev_endP c1 h3 h2
      have hget2 : (mkMove (mkMove c0.start (DrawCommand.endP lc)).start
          (DrawCommand.endP ((t1 :: trest).getLastD t1)) ::
          ((t1 :: trest).map DrawCommand.reverse).reverse).get? 1 = some c1 := by
        rw [List.get?_cons_succ, hinv, List.get?_cons_zero]
      have hhead2 : mkMove (mkMove c0.start (DrawCommand.endP lc)).start
          (DrawCommand.endP ((t1 :: trest).getLastD t1)) = c0 := by
        rw [hlast2D, hendrev, start_mkMove, ← h1]
      unfold SubPathCommand.reverse
      simp only
      unfold SubPathCommand.revFixup
      simp only [hget2]
      rw [if_neg hc1nc]
      rw [hhead2, hinv]

/-- C5, counterexample: on `[Move(_, (0,0)), Quad((0,0),(1,2),(2,0)),
Close((2,0),(0,0))]` — a closed, well-chained subpath — two reversals do
not restore the command sequence: the quadratic curve comes back as a
line, because the close fix-up promotes the reversed curve to a 2-point
close and the second reversal demotes it to a line. -/
theorem claim5_counterexample :
    (mqzEx.reverse.reverse).commands ≠ mqzEx.commands := by
  decide

/-- C5, witness: the amended theorem on the scenario square. -/
theorem claim5_witness : sqEx.reverse.reverse = sqEx :=
  claim5_amended sqEx (by decide)

/-! ## Claim C8: shiftBack then shiftForward -/

theorem rotR_concat {α : Type} (l : List α) (a : α) : rotR (l ++ [a]) = a :: l := by
  unfold rotR
  rw [List.getLast?_concat, List.dropLast_concat]

theorem rotR_rotate_one {α : Type} (l : List α) : rotR (l.rotate 1) = l := by
  rcases l with _ | ⟨x, t⟩
  · rfl
  · have h1 : (x :: t).rotate 1 = t ++ [x] := by
      have := List.rotate_cons_succ t x 0
      simpa using this
    rw [h1, rotR_concat]

theorem rotR_iter_rotate {α : Type} (n : Nat) :
    ∀ l : List α, rotR^[n] (l.rotate n) = l := by
  induction n with
  | zero =>
    intro l
    simp
  | succ k ih =>
    intro l
    rw [Function.iterate_succ_apply]
    rw [show l.rotate (k + 1) = (l.rotate k).rotate 1 from (List.rotate_rotate l k 1).symm]
    rw [rotR_rotate_one]
    exact ih l

theorem rotR_iterate_length {α : Type} (l : List α) : rotR^[l.length] l = l := by
  have h := rotR_iter_rotate l.length l
  rwa [List.rotate_length] at h

theorem rotR_length {α : Type} (l : List α) : (rotR l).length = l.length := by
  rcases List.eq_nil_or_concat l with h | ⟨init, a, h⟩
  · subst h
    rfl
  · subst h
    rw [List.concat_eq_append, rotR_concat]
    simp

theorem chainB_concat (xs : List DrawCommand) (z : DrawCommand) :
    chainB (xs ++ [z]) = true ↔
      (chainB xs = true ∧
        ∀ w, xs.getLast? = some w → DrawCommand.endP w = DrawCommand.start z) := by
  induction xs with
  | nil => simp [chainB]
  | cons a t ih =>
    rcases t with _ | ⟨b, t'⟩
    · simp [chainB]
    · rw [show (a :: b :: t') ++ [z] = a :: ((b :: t') ++ [z]) from rfl]
      rw [show (b :: t') ++ [z] = b :: (t' ++ [z]) from rfl]
      rw [show chainB (a :: b :: (t' ++ [z])) =
        (decide (DrawCommand.endP a = DrawCommand.start b) && chainB (b :: (t' ++ [z])))
        from rfl]
      rw [show chainB (a :: b :: t') =
        (decide (DrawCommand.endP a = DrawCommand.start b) && chainB (b :: t')) from rfl]
      rw [show (b :: t') ++ [z] = b :: (t' ++ [z]) from rfl] at ih
      simp only [Bool.and_eq_true, decide_eq_true_eq] at ih ⊢
      constructor
      · rintro ⟨hab, hrest⟩
        obtain ⟨hch, hlink⟩ := ih.mp hrest
        refine ⟨⟨hab, hch⟩, ?_⟩
        intro w hw
        apply hlink
        rwa [List.getLast?_cons_cons] at hw
      · rintro ⟨⟨hab, hch⟩, hlink⟩
        refine ⟨hab, ih.mpr ⟨hch, ?_⟩⟩
        intro w hw
        apply hlink
        rwa [List.getLast?_cons_cons]

theorem getLastD_cons_cons2 {α : Type} (a b d e : α) (l : List α) :
    (a :: b :: l).getLastD d = (b :: l).getLastD e := by
  rw [List.getLastD_eq_getLast?, List.getLastD_eq_getLast?, List.getLast?_cons_cons]
  obtain ⟨w, hw⟩ : ∃ w, (b :: l).getLast? = some w :=
    ⟨_, List.getLast?_eq_getLast _ (List.cons_ne_nil b l)⟩
  rw [hw]
  rfl

theorem openLoop_isClosed (s : Option Point) (d : DrawCommand) (ds' : List DrawCommand)
    (hok : cycleOK (d :: ds') = true) :
    (openLoopSub s (d :: ds')).isClosed = true := by
  unfold cycleOK at hok
  simp only [Bool.and_eq_true, List.all_eq_true, decide_eq_true_eq] at hok
  obtain ⟨⟨hall, hchain⟩, hlink⟩ := hok
  obtain ⟨a, ha⟩ := Option.isSome_iff_exists.mp (hall d (by simp)).1.2
  obtain ⟨g, hg⟩ : ∃ g, (d :: ds').getLast? = some g :=
    ⟨_, List.getLast?_eq_getLast _ (List.cons_ne_nil d ds')⟩
  have hgD : (d :: ds').getLastD d = g := by
    rw [List.getLastD_eq_getLast?, hg]
    rfl
  rw [hgD] at hlink
  have hge : DrawCommand.endP g = some a := by
    rw [hlink, ha]
  have h1 : (openLoopSub s (d :: ds')).start = some a := by
    unfold openLoopSub SubPathCommand.start
    simp only [List.head?_cons]
    rw [show Option.bind (some (mkMove s d.start)) DrawCommand.endP =
      DrawCommand.endP (mkMove s d.start) from rfl]
    rw [endP_mkMove]
    exact ha
  have h2 : (openLoopSub s (d :: ds')).endP = some a := by
    unfold openLoopSub SubPathCommand.endP
    rw [List.getLast?_cons_cons, hg]
    exact hge
  unfold SubPathCommand.isClosed
  rw [h1, h2]
  simp

theorem shiftBack_openLoop (s : Option Point) (d lst : DrawCommand)
    (init' : List DrawCommand) (hok : cycleOK (d :: (init' ++ [lst])) = true) :
    (openLoopSub s (d :: (init' ++ [lst]))).shiftBack =
      openLoopSub s (lst :: d :: init') := by
  have hlstnc : lst.variant ≠ Variant.close := by
    unfold cycleOK at hok
    simp only [Bool.and_eq_true, List.all_eq_true, decide_eq_true_eq] at hok
    exact (hok.1.1 lst (by simp)).1.1
  have hclosed := openLoop_isClosed s d (init' ++ [lst]) hok
  unfold openLoopSub at hclosed ⊢
  unfold SubPathCommand.shiftBack
  rw [if_neg (by
    push_neg
    refine ⟨?_, by rw [hclosed]; simp⟩
    simp only [List.length_cons]
    omega)]
  have hlD : ((mkMove s d.start :: d :: (init' ++ [lst])).getLastD (mkMove s d.start)) =
      lst := by
    rw [show mkMove s d.start :: d :: (init' ++ [lst]) =
      (mkMove s d.start :: d :: init') ++ [lst] from by simp, List.getLastD_concat]
  have hdrop : (mkMove s d.start :: d :: (init' ++ [lst])).dropLast =
      mkMove s d.start :: d :: init' := by
    rw [show mkMove s d.start :: d :: (init' ++ [lst]) =
      (mkMove s d.start :: d :: init') ++ [lst] from by simp, List.dropLast_concat]
  simp only [hlD, hdrop]
  rw [if_neg hlstnc]
  simp [List.set, start_mkMove]

theorem cycleOK_rotR (d lst : DrawCommand) (init' : List DrawCommand)
    (hok : cycleOK (d :: (init' ++ [lst])) = true) :
    cycleOK (lst :: d :: init') = true := by
  unfold cycleOK at hok ⊢
  simp only [Bool.and_eq_true, List.all_eq_true, decide_eq_true_eq] at hok ⊢
  obtain ⟨⟨hall, hchain⟩, hlink⟩ := hok
  have hlD : ((d :: (init' ++ [lst])).getLastD d) = lst := by
    rw [show d :: (init' ++ [lst]) = (d :: init') ++ [lst] from by simp,
      List.getLastD_concat]
  rw [hlD] at hlink
  have hcc := (chainB_concat (d :: init') lst).mp (by
    rw [show (d :: init') ++ [lst] = d :: (init' ++ [lst]) from by simp]
    exact hchain)
  obtain ⟨hch1, hlink2⟩ := hcc
  refine ⟨⟨?_, ?_⟩, ?_⟩
  · intro x hx
    apply hall
    simp only [List.mem_cons, List.mem_append, List.mem_singleton] at hx ⊢
    tauto
  · rw [show chainB (lst :: d :: init') =
      (decide (DrawCommand.endP lst = DrawCommand.start d) && chainB (d :: init'))
      from rfl]
    simp [hlink, hch1]
  · obtain ⟨w, hw⟩ : ∃ w, (d :: init').getLast? = some w :=
      ⟨_, List.getLast?_eq_getLast _ (List.cons_ne_nil d init')⟩
    have hgw : (lst :: d :: init').getLastD lst = w := by
      rw [getLastD_cons_cons2 lst d lst d, List.getLastD_eq_getLast?, hw]
      rfl
    rw [hgw]
    exact hlink2 w hw

theorem shiftBack_iter_openLoop (s : Option Point) (k : Nat) :
    ∀ ds : List DrawCommand, 2 ≤ ds.length → cycleOK ds = true →
      SubPathCommand.shiftBack^[k] (openLoopSub s ds) =
        openLoopSub s (rotR^[k] ds) := by
  induction k with
  | zero =>
    intro ds _ _
    rfl
  | succ n ih =>
    intro ds hlen hok
    rcases ds with _ | ⟨d, ds'⟩
    · simp at hlen
    rcases List.eq_nil_or_concat ds' with h | ⟨init', lst, h⟩
    · subst h
      simp at hlen
    subst h
    rw [List.concat_eq_append] at hok ⊢
    rw [Function.iterate_succ_apply, Function.iterate_succ_apply]
    rw [shiftBack_openLoop s d lst init' hok]
    rw [show rotR (d :: (init' ++ [lst])) = lst :: d :: init' from by
      rw [show d :: (init' ++ [lst]) = (d :: init') ++ [lst] from by simp, rotR_concat]]
    exact ih (lst :: d :: init') (by simp) (cycleOK_rotR d lst init' hok)

theorem openLoop_roundtrip (s : Option Point) (ds : List DrawCommand)
    (hlen : 2 ≤ ds.length) (hok : cycleOK ds = true) :
    ((openLoopSub s ds).shiftBack).shiftForward = openLoopSub s ds := by
  rcases ds with _ | ⟨d, ds'⟩
  · simp at hlen
  rcases List.eq_nil_or_concat ds' with h | ⟨init', lst, h⟩
  · subst h
    simp at hlen
  subst h
  simp only [List.concat_eq_append] at hok hlen ⊢
  rw [shiftBack_openLoop s d lst init' hok]
  have hok2 := cycleOK_rotR d lst init' hok
  have hclosed2 := openLoop_isClosed s lst (d :: init') hok2
  unfold SubPathCommand.shiftForward
  rw [if_neg (by
    push_neg
    refine ⟨?_, by rw [hclosed2]; simp⟩
    unfold openLoopSub
    simp only [List.length_cons]
    omega)]
  have hcommlen : (openLoopSub s (lst :: d :: init')).commands.length =
      init'.length + 3 := by
    unfold openLoopSub
    simp
  rw [hcommlen]
  have hcount : init'.length + 3 - 2 = init'.length + 1 := by omega
  rw [hcount]
  rw [shiftBack_iter_openLoop s (init'.length + 1) (lst :: d :: init') (by simp) hok2]
  rw [show lst :: d :: init' = rotR (d :: (init' ++ [lst])) from by
    rw [show d :: (init' ++ [lst]) = (d :: init') ++ [lst] from by simp, rotR_concat]]
  rw [← Function.iterate_succ_apply]
  rw [show (init'.length + 1).succ = (d :: (init' ++ [lst])).length from by simp]
  rw [rotR_iterate_length]

theorem lineChain_concat (xs : List Point) :
    ∀ (a z : Point), lineChain a (xs ++ [z]) =
      lineChain a xs ++ [mkLine (some ((a :: xs).getLastD a)) (some z)] := by
  induction xs with
  | nil =>
    intro a z
    simp [lineChain, List.getLastD]
  | cons b bs ih =>
    intro a z
    rw [show (b :: bs) ++ [z] = b :: (bs ++ [z]) from rfl]
    rw [show lineChain a (b :: (bs ++ [z])) =
      mkLine (some a) (some b) :: lineChain b (bs ++ [z]) from rfl]
    rw [ih b z]
    rw [show lineChain a (b :: bs) = mkLine (some a) (some b) :: lineChain b bs from rfl]
    rw [getLastD_cons_cons2 a b a b]
    simp

theorem poly_isClosed (s : Option Point) (p : Point) (tl : List Point) :
    (polySub s (p :: tl)).isClosed = true := by
  unfold polySub SubPathCommand.isClosed SubPathCommand.start SubPathCommand.endP
  simp only [List.head?_cons]
  rw [show Option.bind (some (mkMove s (some p))) DrawCommand.endP =
    DrawCommand.endP (mkMove s (some p)) from rfl]
  rw [endP_mkMove]
  rw [show (mkMove s (some p) ::
      (lineChain p tl ++ [mkClose (some ((p :: tl).getLastD p)) (some p)])).getLast? =
    some (mkClose (some ((p :: tl).getLastD p)) (some p)) from by
      rw [show mkMove s (some p) ::
          (lineChain p tl ++ [mkClose (some ((p :: tl).getLastD p)) (some p)]) =
        (mkMove s (some p) :: lineChain p tl) ++
          [mkClose (some ((p :: tl).getLastD p)) (some p)] from by simp]
      exact List.getLast?_concat _]
  rw [show Option.bind (some (mkClose (some ((p :: tl).getLastD p)) (some p)))
    DrawCommand.endP = DrawCommand.endP (mkClose (some ((p :: tl).getLastD p)) (some p))
    from rfl]
  rw [endP_mkClose]
  simp

theorem shiftBack_poly (s : Option Point) (p z : Point) (tl' : List Point) :
    (polySub s (p :: (tl' ++ [z]))).shiftBack = polySub s (z :: p :: tl') := by
  have hclosed := poly_isClosed s p (tl' ++ [z])
  have hgD : (p :: (tl' ++ [z])).getLastD p = z := by
    rw [show p :: (tl' ++ [z]) = (p :: tl') ++ [z] from by simp, List.getLastD_concat]
  have hchain := lineChain_concat tl' p z
  unfold polySub at hclosed ⊢
  dsimp only at hclosed ⊢
  rw [hgD] at hclosed ⊢
  unfold SubPathCommand.shiftBack
  rw [if_neg (by
    push_neg
    refine ⟨?_, by rw [hclosed]; simp⟩
    simp only [List.length_cons, List.length_append]
    omega)]
  have hl : ((mkMove s (some p) ::
      (lineChain p (tl' ++ [z]) ++ [mkClose (some z) (some p)])).getLastD
      (mkMove s (some p))) = mkClose (some z) (some p) := by
    rw [show mkMove s (some p) ::
        (lineChain p (tl' ++ [z]) ++ [mkClose (some z) (some p)]) =
      (mkMove s (some p) :: lineChain p (tl' ++ [z])) ++ [mkClose (some z) (some p)]
      from by simp, List.getLastD_concat]
  simp only [hl]
  rw [if_pos (show (mkClose (some z) (some p)).variant = Variant.close from rfl)]
  have hdrop : (mkMove s (some p) ::
      (lineChain p (tl' ++ [z]) ++ [mkClose (some z) (some p)])).dropLast =
      mkMove s (some p) :: lineChain p (tl' ++ [z]) := by
    rw [show mkMove s (some p) ::
        (lineChain p (tl' ++ [z]) ++ [mkClose (some z) (some p)]) =
      (mkMove s (some p) :: lineChain p (tl' ++ [z])) ++ [mkClose (some z) (some p)]
      from by simp, List.dropLast_concat]
  simp only [hdrop]
  have hlast2 : ((mkClose (some z) (some p) ::
      mkMove s (some p) :: lineChain p (tl' ++ [z])).getLastD
      (mkClose (some z) (some p))) =
      mkLine (some ((p :: tl').getLastD p)) (some z) := by
    rw [hchain]
    rw [show mkClose (some z) (some p) :: mkMove s (some p) ::
        (lineChain p tl' ++ [mkLine (some ((p :: tl').getLastD p)) (some z)]) =
      (mkClose (some z) (some p) :: mkMove s (some p) :: lineChain p tl') ++
        [mkLine (some ((p :: tl').getLastD p)) (some z)] from by simp,
      List.getLastD_concat]
  simp only [hlast2, start_mkLine, endP_mkLine]
  rw [hchain]
  rw [show mkClose (some z) (some p) :: mkMove s (some p) ::
      (lineChain p tl' ++ [mkLine (some ((p :: tl').getLastD p)) (some z)]) =
    (mkClose (some z) (some p) :: mkMove s (some p) :: lineChain p tl') ++
      [mkLine (some ((p :: tl').getLastD p)) (some z)] from by simp, set_last_concat2]
  simp only [List.set_append, List.set, List.length_cons]
  rw [show lineChain z (p :: tl') = mkLine (some z) (some p) :: lineChain p tl' from rfl]
  rw [getLastD_cons_cons2 z p z p]
  simp [List.set, List.getElem?_append_left, List.get?]

theorem lineChain_length (bs : List Point) : ∀ a : Point, (lineChain a bs).length = bs.length := by
  induction bs with
  | nil => intro a; rfl
  | cons b t ih =>
    intro a
    rw [show lineChain a (b :: t) = mkLine (some a) (some b) :: lineChain b t from rfl]
    simp [ih b]

theorem shiftBack_iter_poly (s : Option Point) (k : Nat) :
    ∀ ps : List Point, 2 ≤ ps.length →
      SubPathCommand.shiftBack^[k] (polySub s ps) = polySub s (rotR^[k] ps) := by
  induction k with
  | zero =>
    intro ps _
    rfl
  | succ n ih =>
    intro ps hlen
    rcases ps with _ | ⟨p, tl⟩
    · simp at hlen
    rcases List.eq_nil_or_concat tl with h | ⟨tl', z, h⟩
    · subst h
      simp at hlen
    subst h
    simp only [List.concat_eq_append]
    rw [Function.iterate_succ_apply, Function.iterate_succ_apply]
    rw [shiftBack_poly s p z tl']
    rw [show rotR (p :: (tl' ++ [z])) = z :: p :: tl' from by
      rw [show p :: (tl' ++ [z]) = (p :: tl') ++ [z] from by simp, rotR_concat]]
    exact ih (z :: p :: tl') (by simp)

theorem poly_roundtrip (s : Option Point) (ps : List Point) (hlen : 2 ≤ ps.length) :
    ((polySub s ps).shiftBack).shiftForward = polySub s ps := by
  rcases ps with _ | ⟨p, tl⟩
  · simp at hlen
  rcases List.eq_nil_or_concat tl with h | ⟨tl', z, h⟩
  · subst h
    simp at hlen
  subst h
  simp only [List.concat_eq_append] at hlen ⊢
  rw [shiftBack_poly s p z tl']
  have hclosed2 := poly_isClosed s z (p :: tl')
  unfold SubPathCommand.shiftForward
  rw [if_neg (by
    push_neg
    refine ⟨?_, by rw [hclosed2]; simp⟩
    unfold polySub
    dsimp only
    simp only [List.length_cons, List.length_append, lineChain_length]
    omega)]
  have hcommlen : (polySub s (z :: p :: tl')).commands.length = tl'.length + 3 := by
    unfold polySub
    dsimp only
    simp [lineChain_length]
  rw [hcommlen]
  have hcount : tl'.length + 3 - 2 = tl'.length + 1 := by omega
  rw [hcount]
  rw [shiftBack_iter_poly s (tl'.length + 1) (z :: p :: tl') (by simp)]
  rw [show z :: p :: tl' = rotR (p :: (tl' ++ [z])) from by
    rw [show p :: (tl' ++ [z]) = (p :: tl') ++ [z] from by simp, rotR_concat]]
  rw [← Function.iterate_succ_apply]
  rw [show (tl'.length + 1).succ = (p :: (tl' ++ [z])).length from by simp]
  rw [rotR_iterate_length]

/-- C8, amended: `shiftBack()` followed by `shiftForward()` restores the
original start point and command order for the two well-formed closed-loop
shapes with at least three commands: a move into a cyclically chained,
fully defined, close-free command loop, or a polygon
(move, lines through a point chain, trailing close back to the anchor). -/
theorem claim8_amended (sp : SubPathCommand)
    (h : (∃ s ds, sp = openLoopSub s ds ∧ 2 ≤ ds.length ∧ cycleOK ds = true) ∨
         (∃ s ps, sp = polySub s ps ∧ 2 ≤ ps.length)) :
    (sp.shiftBack).shiftForward = sp := by
  rcases h with ⟨s, ds, rfl, hlen, hok⟩ | ⟨s, ps, rfl, hlen⟩
  · exact openLoop_roundtrip s ds hlen hok
  · exact poly_roundtrip s ps hlen

/-- C8, counterexample: `mqzEx` is a closed subpath with more than one
command, yet `shiftBack` followed by `shiftForward` does not restore it:
the quadratic curve is destroyed by the close conversion. -/
theorem claim8_counterexample :
    mqzEx.isClosed = true ∧ 1 < mqzEx.commands.length ∧
      (mqzEx.shiftBack).shiftForward ≠ mqzEx := by
  decide

/-- C8, witness: the amended claim on a concrete square polygon. -/
theorem claim8_witness :
    ((polySub (pt 5 5) [⟨0, 0⟩, ⟨1, 0⟩, ⟨1, 1⟩]).shiftBack).shiftForward =
      polySub (pt 5 5) [⟨0, 0⟩, ⟨1, 0⟩, ⟨1, 1⟩] :=
  claim8_amended (polySub (pt 5 5) [⟨0, 0⟩, ⟨1, 0⟩, ⟨1, 1⟩])
    (Or.inr ⟨pt 5 5, [⟨0, 0⟩, ⟨1, 0⟩, ⟨1, 1⟩], rfl, by norm_num⟩)

theorem shiftBack_length (sp : SubPathCommand) :
    (sp.shiftBack).commands.length = sp.commands.length := by
  obtain ⟨cmds⟩ := sp
  unfold SubPathCommand.shiftBack
  split
  · rfl
  · rcases cmds with _ | ⟨c0, rest⟩
    · rfl
    · dsimp only
      split
      · simp [List.length_set, List.length_dropLast]
      · simp [List.length_set, List.length_dropLast]
